import Mathlib

/-!
# Verification of the parallel DNA subsequence search (prog2.c / prog2a.c)

Shallow embedding of the core of `src/prog2.c` and `src/prog2a.c`: the
interleaved position partition, the per-position score loop, the worker scan
loop, and the semaphore-guarded merge into the shared best record.

Sequences are `List Char` (the loader guarantees A/C/G/T content, which the
core never relies on).  The shared/local best record `(best_position,
best_count)` is an `Int × Int` pair, sentinel `(-1, -1)`.  C loops are
embedded as fuel-based structural recursions; the fuel used by the program
(`seq_len`) is always sufficient because every loop strictly increases its
counter.
-/

namespace DnaSearch

/-- Score loop of `prog2.c` (lines 181-191): for `j` from `0`, with
`sidx = pos + j`, increment `matches` when `sidx < seq_len` and the symbols
agree, break when `sidx >= seq_len`.  The remaining query symbols are the
list argument; `j` is the current query index. -/
def matchesAtAux (seq : List Char) (pos : Nat) : List Char → Nat → Nat
  | [], _ => 0
  | q :: qs, j =>
      let sidx := pos + j
      if sidx < seq.length ∧ seq.getD sidx 'A' = q then
        1 + matchesAtAux seq pos qs (j + 1)
      else if seq.length ≤ sidx then
        0
      else
        matchesAtAux seq pos qs (j + 1)

/-- `matches` computed by a `prog2.c` child for start position `pos`. -/
def matchesAt (seq subseq : List Char) (pos : Nat) : Nat :=
  matchesAtAux seq pos subseq 0

/-- Score loop of `prog2a.c` (lines 126-130): break first when
`sidx >= seq_len`, then compare symbols. -/
def matchesAtAux2a (seq : List Char) (pos : Nat) : List Char → Nat → Nat
  | [], _ => 0
  | q :: qs, j =>
      let sidx := pos + j
      if seq.length ≤ sidx then
        0
      else
        (if seq.getD sidx 'A' = q then 1 else 0) + matchesAtAux2a seq pos qs (j + 1)

/-- `matches` computed by a `prog2a.c` child for start position `pos`. -/
def matchesAt2a (seq subseq : List Char) (pos : Nat) : Nat :=
  matchesAtAux2a seq pos subseq 0

/-- Local-best update of one scan iteration (`prog2.c` lines 194-197,
`prog2a.c` line 131): install `(pos, matches)` exactly when
`matches > best_cnt`. -/
def stepBest (seq subseq : List Char) (best : Int × Int) (pos : Nat) : Int × Int :=
  if (matchesAt seq subseq pos : Int) > best.2 then ((pos : Int), (matchesAt seq subseq pos : Int))
  else best

/-- The position sequence visited by the loop
`for (pos = start; pos < L; pos += W)`, with explicit fuel; `fuel = L`
always suffices (the counter strictly increases each iteration). -/
def posListFuel (L W : Nat) : Nat → Nat → List Nat
  | 0, _ => []
  | fuel + 1, pos => if pos < L then pos :: posListFuel L W fuel (pos + W) else []

/-- Positions scanned by worker `i` out of `W` over a subject of length `L`
(`prog2.c` line 180, `prog2a.c` line 124). -/
def assignedList (L W i : Nat) : List Nat :=
  posListFuel L W L i

/-- Worker scan loop of `prog2.c` (lines 180-198), fuel-based. -/
def workerLoopFuel (seq subseq : List Char) (W : Nat) : Nat → Nat → Int × Int → Int × Int
  | 0, _, best => best
  | fuel + 1, pos, best =>
      if pos < seq.length then
        workerLoopFuel seq subseq W fuel (pos + W) (stepBest seq subseq best pos)
      else best

/-- The `(best_pos, best_cnt)` local result of worker `i` of `W` in
`prog2.c`: sentinel `(-1, -1)`, then the scan loop. -/
def workerResult (seq subseq : List Char) (W i : Nat) : Int × Int :=
  workerLoopFuel seq subseq W seq.length i (-1, -1)

/-- The guarded update of the shared record performed inside the critical
section (`prog2.c` lines 208-212, `prog2a.c` lines 137-141): replace the
current best with the candidate exactly when the candidate's count is
strictly greater, or counts tie and the candidate's position is lower. -/
def merge (cur cand : Int × Int) : Int × Int :=
  if cand.2 > cur.2 ∨ (cand.2 = cur.2 ∧ cand.1 < cur.1) then cand else cur

/-- One child's whole contribution to the shared record: merge only when
`best_cnt >= 0` (`prog2.c` line 202, `prog2a.c` line 135); otherwise no
merge attempt is made. -/
def childContribute (cur cand : Int × Int) : Int × Int :=
  if cand.2 ≥ 0 then merge cur cand else cur

/-- Shared record after the children of workers `0 .. n-1` have merged, in
worker-id order, starting from the sentinel initialization
(`prog2.c` lines 126-127). -/
def partialFinal (seq subseq : List Char) (W n : Nat) : Int × Int :=
  (List.range n).foldl (fun cur i => childContribute cur (workerResult seq subseq W i)) (-1, -1)

/-- Final `(best_position, best_count)` read by the parent after all `W`
children of `prog2.c` have finished. -/
def finalResult (seq subseq : List Char) (W : Nat) : Int × Int :=
  partialFinal seq subseq W W

/-- A purely sequential scan of all positions `0 .. len(subject)-1` in
increasing order, with the same per-position update as the worker loop. -/
def sequentialScan (seq subseq : List Char) : Int × Int :=
  (List.range seq.length).foldl (stepBest seq subseq) (-1, -1)

/-- Worker scan loop of `prog2a.c` (lines 124-131), fuel-based. -/
def workerLoopFuel2a (seq subseq : List Char) (W : Nat) : Nat → Nat → Int × Int → Int × Int
  | 0, _, best => best
  | fuel + 1, pos, best =>
      if pos < seq.length then
        workerLoopFuel2a seq subseq W fuel (pos + W)
          (if (matchesAt2a seq subseq pos : Int) > best.2 then
            ((pos : Int), (matchesAt2a seq subseq pos : Int))
          else best)
      else best

/-- Local result of worker `i` of `W` in `prog2a.c`. -/
def workerResult2a (seq subseq : List Char) (W i : Nat) : Int × Int :=
  workerLoopFuel2a seq subseq W seq.length i (-1, -1)

/-- Final shared record of `prog2a.c` after all `W` children merged. -/
def finalResult2a (seq subseq : List Char) (W : Nat) : Int × Int :=
  (List.range W).foldl (fun cur i => childContribute cur (workerResult2a seq subseq W i)) (-1, -1)

/-- `prog2.c` run on already-loaded inputs: `main` rejects a non-positive
worker count (line 71) and empty inputs (line 87), otherwise prints the
triple (worker count, best position, best count) (lines 256-258).  `none`
models an error exit with no result triple. -/
def prog2Run (seq subseq : List Char) (W : Int) : Option (Int × Int × Int) :=
  if W ≤ 0 then none
  else if subseq.length = 0 ∨ seq.length = 0 then none
  else some (W, (finalResult seq subseq W.toNat).1, (finalResult seq subseq W.toNat).2)

/-- `prog2a.c` run on already-loaded inputs: same checks as `prog2.c`, plus
the guard rejecting `num_procs > seq_len` (`prog2a.c` lines 86-90). -/
def prog2aRun (seq subseq : List Char) (W : Int) : Option (Int × Int × Int) :=
  if W ≤ 0 then none
  else if seq.length = 0 ∨ subseq.length = 0 then none
  else if (seq.length : Int) < W then none
  else some (W, (finalResult2a seq subseq W.toNat).1, (finalResult2a seq subseq W.toNat).2)

/-- One observed child termination status: normal exit with a code, or
abnormal termination (killed by a signal). -/
inductive ChildStatus
  | exited : Nat → ChildStatus
  | signaled : ChildStatus
  deriving DecidableEq

/-- The parent's per-child success test
(`!WIFEXITED(wstatus) || WEXITSTATUS(wstatus) != 0`, negated). -/
def childOk : ChildStatus → Bool
  | .exited c => c == 0
  | .signaled => false

/-- The parent's wait loop (`prog2.c` lines 241-253): succeed only when
every child exited normally with status 0; stop at the first failure. -/
def waitChildren : List ChildStatus → Bool
  | [] => true
  | s :: rest => if childOk s then waitChildren rest else false

/-- What the orchestrator prints: the result triple only when the wait loop
succeeded, nothing otherwise (the early `return 1` precedes the `printf`s). -/
def orchestratorOutput (statuses : List ChildStatus) (W : Int) (res : Int × Int) :
    Option (Int × Int × Int) :=
  if waitChildren statuses then some (W, res.1, res.2) else none

/-- The orchestrator's exit status: `0` on success, `1` when some child
failed. -/
def orchestratorExit (statuses : List ChildStatus) : Nat :=
  if waitChildren statuses then 0 else 1

/-- A child's own exit code `rc` (`prog2.c` lines 201-218): `1` when its
`sem_wait` or `sem_post` fails, else `0`. -/
def childExitCode (semWaitFails semPostFails : Bool) : Nat :=
  if semWaitFails then 1 else if semPostFails then 1 else 0

/-- Invariant of a best record over a subject of length `L` and a query of
length `Q`: the sentinel, or a position in `[0, L)` paired with a count in
`[0, Q]`. -/
def recordInv (L Q : Nat) (r : Int × Int) : Prop :=
  r = (-1, -1) ∨ (0 ≤ r.1 ∧ r.1 < (L : Int) ∧ 0 ≤ r.2 ∧ r.2 ≤ (Q : Int))

/-! ## Score loop lemmas -/

/-- Once the subject index is past the boundary, the rest of the score loop
contributes nothing. -/
theorem matchesAtAux_of_le (seq : List Char) (pos : Nat) :
    ∀ (qs : List Char) (j : Nat), seq.length ≤ pos + j → matchesAtAux seq pos qs j = 0 := by
  intro qs
  induction qs with
  | nil => intro j _; rfl
  | cons q qs ih =>
      intro j hj
      simp only [matchesAtAux]
      rw [if_neg (by omega), if_pos (by omega)]

/-- The `prog2.c` score loop, started at query index `j` with remaining query
`qs`, counts the offsets `t` into `qs` whose subject index is in range and
whose symbols agree. -/
theorem matchesAtAux_eq_countP (seq : List Char) (pos : Nat) :
    ∀ (qs : List Char) (j : Nat),
      matchesAtAux seq pos qs j =
        (List.range qs.length).countP
          (fun t => decide (pos + j + t < seq.length ∧
            seq.getD (pos + j + t) 'A' = qs.getD t 'A')) := by
  intro qs
  induction qs with
  | nil => intro j; simp [matchesAtAux]
  | cons q qs ih =>
      intro j
      rw [List.length_cons, List.range_succ_eq_map, List.countP_cons, List.countP_map]
      have hshift : (List.range qs.length).countP
            ((fun t => decide (pos + j + t < seq.length ∧
               seq.getD (pos + j + t) 'A' = (q :: qs).getD t 'A')) ∘ Nat.succ)
          = matchesAtAux seq pos qs (j + 1) := by
        rw [ih (j + 1)]
        apply List.countP_congr
        intro t _
        simp only [Function.comp_def, List.getD_cons_succ, decide_eq_true_eq]
        constructor
        · rintro ⟨h1, h2⟩
          refine ⟨by omega, ?_⟩
          have he : pos + (j + 1) + t = pos + j + t.succ := by omega
          rw [he]; exact h2
        · rintro ⟨h1, h2⟩
          refine ⟨by omega, ?_⟩
          have he : pos + j + t.succ = pos + (j + 1) + t := by omega
          rw [he]; exact h2
      rw [hshift]
      simp only [Nat.add_zero, List.getD_cons_zero]
      by_cases h1 : pos + j < seq.length ∧ seq.getD (pos + j) 'A' = q
      · simp only [matchesAtAux]
        rw [if_pos h1]
        have hd : decide (pos + j < seq.length ∧ seq.getD (pos + j) 'A' = q) = true :=
          decide_eq_true h1
        simp only [hd]
        simp
        omega
      · have hd : decide (pos + j < seq.length ∧ seq.getD (pos + j) 'A' = q) = false :=
          decide_eq_false h1
        by_cases h2 : seq.length ≤ pos + j
        · rw [matchesAtAux_of_le seq pos (q :: qs) j h2,
              matchesAtAux_of_le seq pos qs (j + 1) (by omega)]
          simp only [hd]
          simp
        · simp only [matchesAtAux]
          rw [if_neg h1, if_neg (by omega)]
          simp only [hd]
          simp

/-- The score of a start position, as computed by the `prog2.c` child, is the
number of query indices whose aligned subject index is in range and matches. -/
theorem matchesAt_eq_countP (seq subseq : List Char) (p : Nat) :
    matchesAt seq subseq p =
      (List.range subseq.length).countP
        (fun i => decide (p + i < seq.length ∧ seq.getD (p + i) 'A' = subseq.getD i 'A')) := by
  rw [matchesAt, matchesAtAux_eq_countP]
  apply List.countP_congr
  intro t _
  simp only [Nat.add_zero]

/-- A score never exceeds the query length. -/
theorem matchesAt_le_length (seq subseq : List Char) (p : Nat) :
    matchesAt seq subseq p ≤ subseq.length := by
  rw [matchesAt_eq_countP]
  calc (List.range subseq.length).countP _ ≤ (List.range subseq.length).length :=
        List.countP_le_length _
    _ = subseq.length := List.length_range _

/-- The two score loops (`prog2.c` and `prog2a.c`) agree. -/
theorem matchesAtAux2a_eq (seq : List Char) (pos : Nat) :
    ∀ (qs : List Char) (j : Nat), matchesAtAux2a seq pos qs j = matchesAtAux seq pos qs j := by
  intro qs
  induction qs with
  | nil => intro j; rfl
  | cons q qs ih =>
      intro j
      simp only [matchesAtAux2a, matchesAtAux]
      by_cases h2 : seq.length ≤ pos + j
      · rw [if_pos h2, if_neg (by omega), if_pos h2]
      · rw [if_neg h2]
        by_cases hm : seq.getD (pos + j) 'A' = q
        · rw [if_pos hm, if_pos ⟨by omega, hm⟩, ih]
        · rw [if_neg hm, if_neg (by intro h; exact hm h.2), if_neg h2, ih]
          simp

/-- The two programs compute the same score at every position. -/
theorem matchesAt2a_eq (seq subseq : List Char) (p : Nat) :
    matchesAt2a seq subseq p = matchesAt seq subseq p :=
  matchesAtAux2a_eq seq p subseq 0

/-! ## Partition lemmas -/

/-- Every position the loop visits is below the bound `L`. -/
theorem lt_of_mem_posListFuel {L W : Nat} :
    ∀ {fuel pos q : Nat}, q ∈ posListFuel L W fuel pos → q < L := by
  intro fuel
  induction fuel with
  | zero => intro pos q h; simp [posListFuel] at h
  | succ fuel ih =>
      intro pos q h
      rw [posListFuel] at h
      by_cases hp : pos < L
      · rw [if_pos hp] at h
        rcases List.mem_cons.mp h with h | h
        · omega
        · exact ih h
      · rw [if_neg hp] at h
        simp at h

/-- Every position the loop visits is at least the start position. -/
theorem start_le_of_mem_posListFuel {L W : Nat} :
    ∀ {fuel pos q : Nat}, q ∈ posListFuel L W fuel pos → pos ≤ q := by
  intro fuel
  induction fuel with
  | zero => intro pos q h; simp [posListFuel] at h
  | succ fuel ih =>
      intro pos q h
      rw [posListFuel] at h
      by_cases hp : pos < L
      · rw [if_pos hp] at h
        rcases List.mem_cons.mp h with h | h
        · omega
        · have := ih h
          omega
      · rw [if_neg hp] at h
        simp at h

/-- With enough fuel (the loop never runs more than `L - pos` iterations),
membership in the visited-position list is: at least the start, below the
bound, and congruent to the start modulo the stride. -/
theorem mem_posListFuel {L W : Nat} (hW : 0 < W) :
    ∀ (fuel pos q : Nat), L ≤ pos + fuel →
      (q ∈ posListFuel L W fuel pos ↔ pos ≤ q ∧ q < L ∧ ∃ k, q = pos + W * k) := by
  intro fuel
  induction fuel with
  | zero =>
      intro pos q hfuel
      simp only [posListFuel, List.not_mem_nil, false_iff]
      rintro ⟨h1, h2, -⟩
      omega
  | succ fuel ih =>
      intro pos q hfuel
      rw [posListFuel]
      by_cases hp : pos < L
      · rw [if_pos hp, List.mem_cons, ih (pos + W) q (by omega)]
        constructor
        · rintro (rfl | ⟨h1, h2, k, rfl⟩)
          · exact ⟨le_refl _, hp, 0, by omega⟩
          · exact ⟨by omega, h2, k + 1, by ring⟩
        · rintro ⟨h1, h2, k, rfl⟩
          match k with
          | 0 => left; omega
          | k + 1 =>
              right
              refine ⟨by nlinarith, h2, k, by ring⟩
      · rw [if_neg hp]
        simp only [List.not_mem_nil, false_iff]
        rintro ⟨h1, h2, -⟩
        omega

/-- Membership in worker `i`'s assignment (for `i < W`): exactly the
positions below `L` in residue class `i` modulo `W`. -/
theorem mem_assignedList {L W i : Nat} (hW : 0 < W) (hi : i < W) (q : Nat) :
    q ∈ assignedList L W i ↔ q < L ∧ q % W = i := by
  rw [assignedList, mem_posListFuel hW L i q (by omega)]
  constructor
  · rintro ⟨h1, h2, k, rfl⟩
    refine ⟨h2, ?_⟩
    rw [Nat.add_mul_mod_self_left, Nat.mod_eq_of_lt hi]
  · rintro ⟨h1, h2⟩
    refine ⟨h2 ▸ Nat.mod_le q W, h1, q / W, ?_⟩
    conv_lhs => rw [← Nat.mod_add_div q W, h2]

/-- The visited-position list is strictly increasing. -/
theorem pairwise_posListFuel {L W : Nat} (hW : 0 < W) :
    ∀ (fuel pos : Nat), List.Pairwise (· < ·) (posListFuel L W fuel pos) := by
  intro fuel
  induction fuel with
  | zero => intro pos; simp [posListFuel]
  | succ fuel ih =>
      intro pos
      rw [posListFuel]
      by_cases hp : pos < L
      · rw [if_pos hp]
        refine List.Pairwise.cons ?_ (ih (pos + W))
        intro q hq
        have := start_le_of_mem_posListFuel hq
        omega
      · rw [if_neg hp]
        exact List.Pairwise.nil

/-! ## Worker loop as a fold over its position list -/

/-- The `prog2.c` worker loop is the fold of the per-position update over the
list of positions it visits. -/
theorem workerLoopFuel_eq_foldl (seq subseq : List Char) (W : Nat) :
    ∀ (fuel pos : Nat) (best : Int × Int),
      workerLoopFuel seq subseq W fuel pos best =
        List.foldl (stepBest seq subseq) best (posListFuel seq.length W fuel pos) := by
  intro fuel
  induction fuel with
  | zero => intro pos best; rfl
  | succ fuel ih =>
      intro pos best
      rw [workerLoopFuel, posListFuel]
      by_cases hp : pos < seq.length
      · rw [if_pos hp, if_pos hp, List.foldl_cons, ih]
      · rw [if_neg hp, if_neg hp, List.foldl_nil]

/-- A worker's local result is the fold of the update over its assignment. -/
theorem workerResult_eq_foldl (seq subseq : List Char) (W i : Nat) :
    workerResult seq subseq W i =
      List.foldl (stepBest seq subseq) (-1, -1) (assignedList seq.length W i) :=
  workerLoopFuel_eq_foldl seq subseq W seq.length i (-1, -1)

/-! ## Best-over-a-set characterization -/

/-- `r` is the correct best record over the candidate position set `S`:
either `S` is empty and `r` is the sentinel, or `r` is `(p, score p)` for a
member `p` of maximal score, least among the maximizers. -/
def isBestOf (seq subseq : List Char) (S : Nat → Prop) (r : Int × Int) : Prop :=
  ((∀ p, ¬ S p) ∧ r = (-1, -1)) ∨
  (∃ p, S p ∧ r = ((p : Int), (matchesAt seq subseq p : Int)) ∧
    (∀ q, S q → matchesAt seq subseq q ≤ matchesAt seq subseq p) ∧
    (∀ q, S q → matchesAt seq subseq q = matchesAt seq subseq p → p ≤ q))

/-- `isBestOf` only depends on the extension of the candidate set. -/
theorem isBestOf_congr {seq subseq : List Char} {S T : Nat → Prop} {r : Int × Int}
    (hST : ∀ p, S p ↔ T p) (h : isBestOf seq subseq S r) : isBestOf seq subseq T r := by
  rcases h with ⟨hemp, hr⟩ | ⟨p, hp, hr, hmax, hmin⟩
  · exact Or.inl ⟨fun p hp => hemp p ((hST p).mpr hp), hr⟩
  · exact Or.inr ⟨p, (hST p).mp hp, hr,
      fun q hq => hmax q ((hST q).mpr hq),
      fun q hq => hmin q ((hST q).mpr hq)⟩

/-- The best record over a set is unique. -/
theorem isBestOf_unique {seq subseq : List Char} {S : Nat → Prop} {r r' : Int × Int}
    (h : isBestOf seq subseq S r) (h' : isBestOf seq subseq S r') : r = r' := by
  rcases h with ⟨hemp, hr⟩ | ⟨p, hp, hr, hmax, hmin⟩
  · rcases h' with ⟨_, hr'⟩ | ⟨p', hp', _, _, _⟩
    · rw [hr, hr']
    · exact absurd hp' (hemp p')
  · rcases h' with ⟨hemp', _⟩ | ⟨p', hp', hr', hmax', hmin'⟩
    · exact absurd hp (hemp' p)
    · have hs : matchesAt seq subseq p = matchesAt seq subseq p' :=
        le_antisymm (hmax' p hp) (hmax p' hp')
      have hpp : p = p' :=
        le_antisymm (hmin p' hp' hs.symm) (hmin' p hp hs)
      rw [hr, hr', hpp]

/-- One iteration of the scan loop extends the set a worker's best is
correct for by the scanned position, provided every earlier candidate is
strictly below it (positions are scanned in increasing order). -/
theorem isBestOf_stepBest {seq subseq : List Char} {S : Nat → Prop} {r : Int × Int} {a : Nat}
    (h : isBestOf seq subseq S r) (hbelow : ∀ x, S x → x < a) :
    isBestOf seq subseq (fun p => S p ∨ p = a) (stepBest seq subseq r a) := by
  rcases h with ⟨hemp, hr⟩ | ⟨p, hp, hr, hmax, hmin⟩
  · subst hr
    have hc : ((matchesAt seq subseq a : Int) > (((-1 : Int), (-1 : Int)) : Int × Int).2) := by
      show ((-1 : Int) < (matchesAt seq subseq a : Int))
      omega
    rw [stepBest, if_pos hc]
    refine Or.inr ⟨a, Or.inr rfl, rfl, ?_, ?_⟩
    · rintro q (hq | rfl)
      · exact absurd hq (hemp q)
      · exact le_refl _
    · rintro q (hq | rfl)
      · exact absurd hq (hemp q)
      · intro _
        exact le_refl _
  · subst hr
    by_cases hgt : matchesAt seq subseq p < matchesAt seq subseq a
    · have hc : ((matchesAt seq subseq a : Int) >
          (((p : Int), (matchesAt seq subseq p : Int)) : Int × Int).2) := by
        show ((matchesAt seq subseq p : Int) < (matchesAt seq subseq a : Int))
        exact_mod_cast hgt
      rw [stepBest, if_pos hc]
      refine Or.inr ⟨a, Or.inr rfl, rfl, ?_, ?_⟩
      · rintro q (hq | rfl)
        · exact le_trans (hmax q hq) (le_of_lt hgt)
        · exact le_refl _
      · rintro q (hq | rfl)
        · intro habs
          have := hmax q hq
          omega
        · intro _
          exact le_refl _
    · have hc : ¬ ((matchesAt seq subseq a : Int) >
          (((p : Int), (matchesAt seq subseq p : Int)) : Int × Int).2) := by
        show ¬ ((matchesAt seq subseq p : Int) < (matchesAt seq subseq a : Int))
        exact_mod_cast hgt
      rw [stepBest, if_neg hc]
      refine Or.inr ⟨p, Or.inl hp, rfl, ?_, ?_⟩
      · rintro q (hq | rfl)
        · exact hmax q hq
        · exact le_of_not_lt hgt
      · rintro q (hq | rfl)
        · exact hmin q hq
        · intro _
          exact le_of_lt (hbelow p hp)

/-- Folding the scan update over a strictly increasing position list yields
the correct best over the union of the already-covered set and the list. -/
theorem isBestOf_foldl_stepBest {seq subseq : List Char} :
    ∀ (ps : List Nat), List.Pairwise (· < ·) ps →
      ∀ (S : Nat → Prop) (r : Int × Int), isBestOf seq subseq S r →
        (∀ q ∈ ps, ∀ x, S x → x < q) →
        isBestOf seq subseq (fun p => S p ∨ p ∈ ps) (List.foldl (stepBest seq subseq) r ps) := by
  intro ps
  induction ps with
  | nil =>
      intro _ S r h _
      rw [List.foldl_nil]
      exact isBestOf_congr (by simp) h
  | cons a ps ih =>
      intro hpair S r h hbelow
      rw [List.foldl_cons]
      have hstep := isBestOf_stepBest h (fun x hx => hbelow a (List.mem_cons_self a ps) x hx)
      have hpair' := (List.pairwise_cons.mp hpair).2
      have hhead := (List.pairwise_cons.mp hpair).1
      have := ih hpair' (fun p => S p ∨ p = a) (stepBest seq subseq r a) hstep ?_
      · refine isBestOf_congr ?_ this
        intro p
        rw [List.mem_cons]
        tauto
      · rintro q hq x (hx | rfl)
        · exact lt_trans (hbelow a (List.mem_cons_self a ps) x hx) (hhead q hq)
        · exact hhead q hq

/-- A worker's local result is the correct best over its assigned residue
class (workers with an out-of-range id have the empty class and keep the
sentinel). -/
theorem workerResult_isBestOf {seq subseq : List Char} {W i : Nat} (hW : 0 < W) (hi : i < W) :
    isBestOf seq subseq (fun p => p < seq.length ∧ p % W = i) (workerResult seq subseq W i) := by
  rw [workerResult_eq_foldl]
  have hfold := @isBestOf_foldl_stepBest seq subseq (assignedList seq.length W i)
    (pairwise_posListFuel hW seq.length i)
    (fun _ => False) (-1, -1) (Or.inl ⟨fun _ h => h, rfl⟩)
    (fun _ _ _ h => absurd h id)
  refine isBestOf_congr ?_ hfold
  intro p
  rw [mem_assignedList hW hi]
  tauto

/-! ## Merge lemmas -/

/-- Merging the bests of two candidate sets yields the best of their union. -/
theorem isBestOf_merge {seq subseq : List Char} {S T : Nat → Prop} {r t : Int × Int}
    (h : isBestOf seq subseq S r) (h' : isBestOf seq subseq T t) :
    isBestOf seq subseq (fun p => S p ∨ T p) (merge r t) := by
  rcases h with ⟨hemp, hr⟩ | ⟨p, hp, hr, hmax, hmin⟩
  · rcases h' with ⟨hemp', ht⟩ | ⟨p', hp', ht, hmax', hmin'⟩
    · subst hr; subst ht
      rw [merge, if_neg (by simp)]
      exact Or.inl ⟨fun q => by rw [not_or]; exact ⟨hemp q, hemp' q⟩, rfl⟩
    · subst hr; subst ht
      rw [merge, if_pos (by left; show (-1 : Int) < _; omega)]
      refine Or.inr ⟨p', Or.inr hp', rfl, ?_, ?_⟩
      · rintro q (hq | hq)
        · exact absurd hq (hemp q)
        · exact hmax' q hq
      · rintro q (hq | hq)
        · exact fun _ => absurd hq (hemp q)
        · exact hmin' q hq
  · rcases h' with ⟨hemp', ht⟩ | ⟨p', hp', ht, hmax', hmin'⟩
    · subst hr; subst ht
      rw [merge, if_neg ?_]
      · refine Or.inr ⟨p, Or.inl hp, rfl, ?_, ?_⟩
        · rintro q (hq | hq)
          · exact hmax q hq
          · exact absurd hq (hemp' q)
        · rintro q (hq | hq)
          · exact hmin q hq
          · exact fun _ => absurd hq (hemp' q)
      · rw [not_or]
        constructor
        · show ¬ ((_ : Int) < -1)
          omega
        · rintro ⟨habs, -⟩
          simp only at habs
          omega
    · subst hr; subst ht
      by_cases hcnt : matchesAt seq subseq p < matchesAt seq subseq p'
      · rw [merge, if_pos (Or.inl (by
          show ((matchesAt seq subseq p : Int) < (matchesAt seq subseq p' : Int))
          exact_mod_cast hcnt))]
        refine Or.inr ⟨p', Or.inr hp', rfl, ?_, ?_⟩
        · rintro q (hq | hq)
          · exact le_trans (hmax q hq) (le_of_lt hcnt)
          · exact hmax' q hq
        · rintro q (hq | hq)
          · intro habs
            have := hmax q hq
            omega
          · exact hmin' q hq
      · by_cases heq : matchesAt seq subseq p' = matchesAt seq subseq p
        · by_cases hpos : p' < p
          · rw [merge, if_pos (Or.inr ⟨by
              show ((matchesAt seq subseq p' : Int) = (matchesAt seq subseq p : Int))
              exact_mod_cast heq, by
              show ((p' : Int) < (p : Int))
              exact_mod_cast hpos⟩)]
            refine Or.inr ⟨p', Or.inr hp', rfl, ?_, ?_⟩
            · rintro q (hq | hq)
              · exact heq ▸ hmax q hq
              · exact hmax' q hq
            · rintro q (hq | hq)
              · intro hq'
                have := hmin q hq (by omega)
                omega
              · exact hmin' q hq
          · rw [merge, if_neg ?_]
            · refine Or.inr ⟨p, Or.inl hp, rfl, ?_, ?_⟩
              · rintro q (hq | hq)
                · exact hmax q hq
                · exact heq ▸ hmax' q hq
              · rintro q (hq | hq)
                · exact hmin q hq
                · intro hq'
                  have := hmin' q hq (by omega)
                  omega
            · rw [not_or]
              constructor
              · show ¬ ((matchesAt seq subseq p : Int) < (matchesAt seq subseq p' : Int))
                omega
              · rintro ⟨-, habs⟩
                simp only at habs
                have : (p' : Int) < (p : Int) := habs
                omega
        · have hlt : matchesAt seq subseq p' < matchesAt seq subseq p := by omega
          rw [merge, if_neg ?_]
          · refine Or.inr ⟨p, Or.inl hp, rfl, ?_, ?_⟩
            · rintro q (hq | hq)
              · exact hmax q hq
              · exact le_trans (hmax' q hq) (le_of_lt hlt)
            · rintro q (hq | hq)
              · exact hmin q hq
              · intro hq'
                have := hmax' q hq
                omega
          · rw [not_or]
            constructor
            · show ¬ ((matchesAt seq subseq p : Int) < (matchesAt seq subseq p' : Int))
              omega
            · rintro ⟨habs, -⟩
              simp only at habs
              omega

/-- A child's guarded contribution (`best_cnt >= 0` check, then merge)
also yields the best of the union: when the candidate is the sentinel its
set is empty and the skipped merge would have been a no-op. -/
theorem isBestOf_childContribute {seq subseq : List Char} {S T : Nat → Prop} {r t : Int × Int}
    (h : isBestOf seq subseq S r) (h' : isBestOf seq subseq T t) :
    isBestOf seq subseq (fun p => S p ∨ T p) (childContribute r t) := by
  by_cases hc : t.2 ≥ 0
  · rw [childContribute, if_pos hc]
    exact isBestOf_merge h h'
  · rw [childContribute, if_neg hc]
    rcases h' with ⟨hemp', -⟩ | ⟨p', -, ht, -, -⟩
    · refine isBestOf_congr ?_ h
      intro q
      constructor
      · exact Or.inl
      · rintro (hq | hq)
        · exact hq
        · exact absurd hq (hemp' q)
    · exfalso
      apply hc
      rw [ht]
      show (0 : Int) ≤ (matchesAt seq subseq p' : Int)
      omega

/-! ## The shared record over the whole run -/

/-- After the first `n ≤ W` workers have contributed, the shared record is
the correct best over the residue classes `0 .. n-1`. -/
theorem partialFinal_isBestOf {seq subseq : List Char} {W : Nat} (hW : 0 < W) :
    ∀ n, n ≤ W →
      isBestOf seq subseq (fun q => q < seq.length ∧ q % W < n) (partialFinal seq subseq W n) := by
  intro n
  induction n with
  | zero =>
      intro _
      refine Or.inl ⟨?_, rfl⟩
      rintro p ⟨-, habs⟩
      omega
  | succ n ih =>
      intro hn
      have hstep : partialFinal seq subseq W (n + 1)
          = childContribute (partialFinal seq subseq W n) (workerResult seq subseq W n) := by
        rw [partialFinal, partialFinal, List.range_succ, List.foldl_append, List.foldl_cons,
          List.foldl_nil]
      rw [hstep]
      have hcontrib := isBestOf_childContribute (ih (by omega))
        (workerResult_isBestOf hW (show n < W by omega))
      refine isBestOf_congr ?_ hcontrib
      intro q
      constructor
      · rintro (⟨h1, h2⟩ | ⟨h1, h2⟩)
        · exact ⟨h1, by omega⟩
        · exact ⟨h1, by omega⟩
      · rintro ⟨h1, h2⟩
        by_cases hq : q % W < n
        · exact Or.inl ⟨h1, hq⟩
        · exact Or.inr ⟨h1, by omega⟩

/-- The final shared record is the correct best over all positions below the
subject length, for every positive worker count. -/
theorem finalResult_isBestOf {seq subseq : List Char} {W : Nat} (hW : 0 < W) :
    isBestOf seq subseq (fun q => q < seq.length) (finalResult seq subseq W) := by
  rw [finalResult]
  refine isBestOf_congr ?_ (partialFinal_isBestOf hW W (le_refl W))
  intro q
  constructor
  · rintro ⟨h1, -⟩
    exact h1
  · intro h1
    exact ⟨h1, Nat.mod_lt q hW⟩

/-- The sequential scan is also the correct best over all positions below
the subject length. -/
theorem sequentialScan_isBestOf (seq subseq : List Char) :
    isBestOf seq subseq (fun q => q < seq.length) (sequentialScan seq subseq) := by
  rw [sequentialScan]
  have hfold := @isBestOf_foldl_stepBest seq subseq (List.range seq.length)
    (List.pairwise_lt_range seq.length)
    (fun _ => False) (-1, -1) (Or.inl ⟨fun _ h => h, rfl⟩)
    (fun _ _ _ h => absurd h id)
  refine isBestOf_congr ?_ hfold
  intro q
  rw [List.mem_range]
  tauto

/-! ## Record invariant lemmas -/

/-- A worker whose start position is already past the subject keeps its
initial record: the loop body never runs. -/
theorem workerLoopFuel_of_le (seq subseq : List Char) (W : Nat) :
    ∀ (fuel pos : Nat) (best : Int × Int), seq.length ≤ pos →
      workerLoopFuel seq subseq W fuel pos best = best := by
  intro fuel pos best hpos
  cases fuel with
  | zero => rfl
  | succ fuel => rw [workerLoopFuel, if_neg (by omega)]

/-- The scan loop preserves the record invariant. -/
theorem workerLoopFuel_inv (seq subseq : List Char) (W : Nat) :
    ∀ (fuel pos : Nat) (best : Int × Int), recordInv seq.length subseq.length best →
      recordInv seq.length subseq.length (workerLoopFuel seq subseq W fuel pos best) := by
  intro fuel
  induction fuel with
  | zero => intro pos best h; exact h
  | succ fuel ih =>
      intro pos best h
      rw [workerLoopFuel]
      by_cases hp : pos < seq.length
      · rw [if_pos hp]
        apply ih
        rw [stepBest]
        by_cases hc : ((matchesAt seq subseq pos : Int) > best.2)
        · rw [if_pos hc]
          right
          refine ⟨by omega, ?_, by omega, ?_⟩
          · show ((pos : Int) < (seq.length : Int))
            exact_mod_cast hp
          · show ((matchesAt seq subseq pos : Int) ≤ (subseq.length : Int))
            exact_mod_cast matchesAt_le_length seq subseq pos
        · rw [if_neg hc]
          exact h
      · rw [if_neg hp]
        exact h

/-- A worker's local result satisfies the record invariant. -/
theorem workerResult_inv (seq subseq : List Char) (W i : Nat) :
    recordInv seq.length subseq.length (workerResult seq subseq W i) :=
  workerLoopFuel_inv seq subseq W seq.length i (-1, -1) (Or.inl rfl)

/-- Every merge either keeps the current record or installs the candidate. -/
theorem childContribute_or (cur cand : Int × Int) :
    childContribute cur cand = cur ∨ childContribute cur cand = cand := by
  rw [childContribute]
  by_cases hg : cand.2 ≥ 0
  · rw [if_pos hg, merge]
    by_cases hc : cand.2 > cur.2 ∨ (cand.2 = cur.2 ∧ cand.1 < cur.1)
    · rw [if_pos hc]; right; rfl
    · rw [if_neg hc]; left; rfl
  · rw [if_neg hg]; left; rfl

/-- The shared record satisfies the invariant after every child merge. -/
theorem partialFinal_inv (seq subseq : List Char) (W : Nat) :
    ∀ n, recordInv seq.length subseq.length (partialFinal seq subseq W n) := by
  intro n
  induction n with
  | zero => exact Or.inl rfl
  | succ n ih =>
      have hstep : partialFinal seq subseq W (n + 1)
          = childContribute (partialFinal seq subseq W n) (workerResult seq subseq W n) := by
        rw [partialFinal, partialFinal, List.range_succ, List.foldl_append, List.foldl_cons,
          List.foldl_nil]
      rw [hstep]
      rcases childContribute_or (partialFinal seq subseq W n) (workerResult seq subseq W n)
        with h | h
      · rw [h]; exact ih
      · rw [h]; exact workerResult_inv seq subseq W n

/-! ## Merge is order-insensitive -/

/-- The guarded shared-record update is right-commutative: two candidates
may arrive in either order without changing the record. -/
theorem merge_right_comm (b a1 a2 : Int × Int) :
    merge (merge b a1) a2 = merge (merge b a2) a1 := by
  rcases b with ⟨bp, bs⟩
  rcases a1 with ⟨p1, s1⟩
  rcases a2 with ⟨p2, s2⟩
  simp only [merge]
  split_ifs <;>
    first
      | rfl
      | (simp_all only [Prod.mk.injEq, not_or, not_and, not_lt]
         constructor <;> omega)

/-! ## Orchestrator failure lemmas -/

/-- The wait loop fails when some child failed. -/
theorem waitChildren_eq_false {s : ChildStatus} :
    ∀ {statuses : List ChildStatus}, s ∈ statuses → childOk s = false →
      waitChildren statuses = false := by
  intro statuses
  induction statuses with
  | nil => intro h; simp at h
  | cons a rest ih =>
      intro hmem hbad
      rw [waitChildren]
      rcases List.mem_cons.mp hmem with rfl | hmem'
      · rw [hbad]
        simp
      · by_cases ha : childOk a
        · rw [if_pos ha]
          exact ih hmem' hbad
        · simp [ha]

/-! ## prog2a.c computes the same result as prog2.c -/

/-- The two worker loops agree (their score loops agree). -/
theorem workerLoopFuel2a_eq (seq subseq : List Char) (W : Nat) :
    ∀ (fuel pos : Nat) (best : Int × Int),
      workerLoopFuel2a seq subseq W fuel pos best = workerLoopFuel seq subseq W fuel pos best := by
  intro fuel
  induction fuel with
  | zero => intro pos best; rfl
  | succ fuel ih =>
      intro pos best
      rw [workerLoopFuel2a, workerLoopFuel]
      by_cases hp : pos < seq.length
      · rw [if_pos hp, if_pos hp]
        have hbest : (if (matchesAt2a seq subseq pos : Int) > best.2 then
              ((pos : Int), (matchesAt2a seq subseq pos : Int))
            else best) = stepBest seq subseq best pos := by
          rw [stepBest, matchesAt2a_eq]
        rw [hbest, ih]
      · rw [if_neg hp, if_neg hp]

/-- The two programs' workers produce identical local results. -/
theorem workerResult2a_eq (seq subseq : List Char) (W i : Nat) :
    workerResult2a seq subseq W i = workerResult seq subseq W i :=
  workerLoopFuel2a_eq seq subseq W seq.length i (-1, -1)

/-- The two programs' final shared records are identical. -/
theorem finalResult2a_eq (seq subseq : List Char) (W : Nat) :
    finalResult2a seq subseq W = finalResult seq subseq W := by
  rw [finalResult2a, finalResult, partialFinal]
  have hfun : (fun (cur : Int × Int) (i : Nat) =>
        childContribute cur (workerResult2a seq subseq W i))
      = fun cur i => childContribute cur (workerResult seq subseq W i) := by
    funext cur i
    rw [workerResult2a_eq]
  rw [hfun]

/-! ## Claims -/

/-- C1: for every non-empty subject and non-empty query, the final
`(best_position, best_score)` pair is identical for every worker count
`W ≥ 1` and equals the result of a sequential scan of all positions
`0 .. len(subject) - 1`: parallel partitioning changes only which worker
evaluates each position, not the answer. -/
theorem claim_C1 (seq subseq : List Char) (hs : seq ≠ []) (hq : subseq ≠ [])
    (W : Nat) (hW : 1 ≤ W) :
    finalResult seq subseq W = sequentialScan seq subseq :=
  isBestOf_unique (finalResult_isBestOf hW) (sequentialScan_isBestOf seq subseq)

theorem claim_C1_witness :
    ("ACGTACGT".toList ≠ ([] : List Char)) ∧ ("ACGT".toList ≠ ([] : List Char)) ∧ 1 ≤ 3 ∧
      finalResult "ACGTACGT".toList "ACGT".toList 3 =
        sequentialScan "ACGTACGT".toList "ACGT".toList :=
  ⟨by decide, by decide, by decide,
    claim_C1 "ACGTACGT".toList "ACGT".toList (by decide) (by decide) 3 (by decide)⟩

/-- C2: for every position `p < len(subject)`, the computed score equals the
count of query indices `i` with `p + i < len(subject)` and
`subject[p+i] == query[i]`; indices past the subject boundary contribute
nothing and are not counted as mismatches. -/
theorem claim_C2 (seq subseq : List Char) (p : Nat) (hp : p < seq.length) :
    matchesAt seq subseq p =
      (List.range subseq.length).countP
        (fun i => decide (p + i < seq.length ∧ seq.getD (p + i) 'A' = subseq.getD i 'A')) :=
  matchesAt_eq_countP seq subseq p

theorem claim_C2_witness :
    6 < ("ACGTACGT".toList).length ∧
      matchesAt "ACGTACGT".toList "ACGT".toList 6 =
        (List.range ("ACGT".toList).length).countP
          (fun i => decide (6 + i < ("ACGTACGT".toList).length ∧
            ("ACGTACGT".toList).getD (6 + i) 'A' = ("ACGT".toList).getD i 'A')) :=
  ⟨by decide, claim_C2 "ACGTACGT".toList "ACGT".toList 6 (by decide)⟩

/-- C3: the merge replaces the shared best exactly when the candidate's
score is strictly greater, or scores tie and the candidate's position is
lower; folding the merge over any permutation of the same worker results,
starting from the sentinel, gives the same final best, and among equal-score
candidates the lowest position always wins. -/
theorem claim_C3 :
    (∀ cur cand : Int × Int,
      merge cur cand =
        if cand.2 > cur.2 ∨ (cand.2 = cur.2 ∧ cand.1 < cur.1) then cand else cur) ∧
    (∀ l₁ l₂ : List (Int × Int), List.Perm l₁ l₂ →
      List.foldl merge (-1, -1) l₁ = List.foldl merge (-1, -1) l₂) ∧
    (∀ p q s : Int, 0 ≤ s → p < q →
      List.foldl merge (-1, -1) [(p, s), (q, s)] = (p, s) ∧
      List.foldl merge (-1, -1) [(q, s), (p, s)] = (p, s)) := by
  refine ⟨fun _ _ => rfl, ?_, ?_⟩
  · intro l₁ l₂ hperm
    exact hperm.foldl_eq' (fun x _ y _ z => merge_right_comm z x y) (-1, -1)
  · intro p q s hs hpq
    have h1 : merge (-1, -1) (p, s) = (p, s) := by
      rw [merge, if_pos]
      left
      show (-1 : Int) < s
      omega
    have h2 : merge (-1, -1) (q, s) = (q, s) := by
      rw [merge, if_pos]
      left
      show (-1 : Int) < s
      omega
    constructor
    · show merge (merge (-1, -1) (p, s)) (q, s) = (p, s)
      rw [h1, merge, if_neg]
      rw [not_or, not_and]
      constructor
      · show ¬ (s < s)
        omega
      · intro _
        show ¬ ((q : Int) < p)
        omega
    · show merge (merge (-1, -1) (q, s)) (p, s) = (p, s)
      rw [h2, merge, if_pos]
      right
      exact ⟨rfl, hpq⟩

theorem claim_C3_witness :
    List.Perm [((0 : Int), (4 : Int)), ((4 : Int), (4 : Int))]
        [((4 : Int), (4 : Int)), ((0 : Int), (4 : Int))] ∧
      List.foldl merge (-1, -1) [((0 : Int), (4 : Int)), ((4 : Int), (4 : Int))] =
        List.foldl merge (-1, -1) [((4 : Int), (4 : Int)), ((0 : Int), (4 : Int))] ∧
      (0 : Int) ≤ 4 ∧ (0 : Int) < 4 ∧
      List.foldl merge (-1, -1) [((0 : Int), (4 : Int)), ((4 : Int), (4 : Int))] = (0, 4) :=
  ⟨List.Perm.swap _ _ _, claim_C3.2.1 _ _ (List.Perm.swap _ _ _), by decide, by decide,
    (claim_C3.2.2 0 4 4 (by decide) (by decide)).1⟩

/-- C4: for every subject length `L` and worker count `W ≥ 1`, the worker
assignments are pairwise disjoint, cover exactly `{0, …, L-1}`, and worker
`i < W` scans exactly the positions `p < L` with `p % W = i`. -/
theorem claim_C4 (L W : Nat) (hW : 1 ≤ W) :
    (∀ p, p < L ↔ ∃ i, i < W ∧ p ∈ assignedList L W i) ∧
    (∀ i j, i < W → j < W → i ≠ j → ∀ p, p ∈ assignedList L W i → p ∉ assignedList L W j) ∧
    (∀ i, i < W → ∀ p, (p ∈ assignedList L W i ↔ p < L ∧ p % W = i)) := by
  refine ⟨?_, ?_, ?_⟩
  · intro p
    constructor
    · intro hp
      exact ⟨p % W, Nat.mod_lt p hW,
        (mem_assignedList hW (Nat.mod_lt p hW) p).mpr ⟨hp, rfl⟩⟩
    · rintro ⟨i, hi, hmem⟩
      exact ((mem_assignedList hW hi p).mp hmem).1
  · intro i j hi hj hne p hpi hpj
    have h1 := (mem_assignedList hW hi p).mp hpi
    have h2 := (mem_assignedList hW hj p).mp hpj
    omega
  · intro i hi p
    exact mem_assignedList hW hi p

theorem claim_C4_witness :
    1 ≤ 2 ∧ (5 ∈ assignedList 8 2 1 ↔ 5 < 8 ∧ 5 % 2 = 1) :=
  ⟨by decide, (claim_C4 8 2 (by decide)).2.2 1 (by decide) 5⟩

/-- C5 (counterexample to the claim as stated): `prog2a.c` rejects a worker
count exceeding the subject length instead of accepting the run — on
subject `"ACG"` (length 3), query `"A"` and `W = 10` it errors out with no
result, while `prog2.c` accepts the same run. -/
theorem claim_C5_counterexample :
    prog2aRun "ACG".toList "A".toList 10 = none ∧
      prog2Run "ACG".toList "A".toList 10 = some (10, 0, 1) := by
  constructor
  · rfl
  · rfl

/-- C5 (amended): in `prog2.c`, a worker count exceeding the subject length
is accepted: each worker with id at least the subject length keeps the
sentinel local result and makes no merge attempt, and the final result
equals the sequential best over all positions. (`prog2a.c`, by contrast,
rejects such a run at its boundary check.) -/
theorem claim_C5 (seq subseq : List Char) (hs : seq ≠ []) (hq : subseq ≠ [])
    (W : Int) (hWL : (seq.length : Int) < W) :
    prog2Run seq subseq W =
      some (W, (sequentialScan seq subseq).1, (sequentialScan seq subseq).2) ∧
    (∀ i : Nat, seq.length ≤ i →
      workerResult seq subseq W.toNat i = (-1, -1) ∧
      ∀ cur, childContribute cur (workerResult seq subseq W.toNat i) = cur) := by
  have hL : 0 < seq.length := List.length_pos.mpr hs
  have hQ : 0 < subseq.length := List.length_pos.mpr hq
  have hW0 : ¬ (W ≤ 0) := by omega
  have hWn : 1 ≤ W.toNat := by omega
  constructor
  · rw [prog2Run, if_neg hW0, if_neg (by omega),
      claim_C1 seq subseq hs hq W.toNat hWn]
  · intro i hi
    have hsent : workerResult seq subseq W.toNat i = (-1, -1) := by
      rw [workerResult]
      exact workerLoopFuel_of_le seq subseq W.toNat seq.length i (-1, -1) hi
    refine ⟨hsent, fun cur => ?_⟩
    rw [hsent, childContribute, if_neg]
    show ¬ ((0 : Int) ≤ -1)
    omega

theorem claim_C5_witness :
    ("ACG".toList ≠ ([] : List Char)) ∧ ("A".toList ≠ ([] : List Char)) ∧
      ((("ACG".toList).length : Int) < 10) ∧
      prog2Run "ACG".toList "A".toList 10 =
        some (10, (sequentialScan "ACG".toList "A".toList).1,
          (sequentialScan "ACG".toList "A".toList).2) ∧
      workerResult "ACG".toList "A".toList 10 5 = (-1, -1) :=
  ⟨by decide, by decide, by decide,
    (claim_C5 "ACG".toList "A".toList (by decide) (by decide) 10 (by decide)).1,
    ((claim_C5 "ACG".toList "A".toList (by decide) (by decide) 10 (by decide)).2 5
      (by decide)).1⟩

/-- C6: if any worker terminates abnormally or exits with a failure status,
the orchestrator returns a non-zero exit status and does not print the
result triple; and a child whose semaphore wait or post fails exits
non-zero. -/
theorem claim_C6 (statuses : List ChildStatus) (W : Int) (res : Int × Int)
    (s : ChildStatus) (hs : s ∈ statuses) (hbad : childOk s = false) :
    orchestratorOutput statuses W res = none ∧ orchestratorExit statuses = 1 ∧
    (∀ sw sp : Bool, sw = true ∨ sp = true → childExitCode sw sp ≠ 0) := by
  have hwait := waitChildren_eq_false hs hbad
  refine ⟨?_, ?_, ?_⟩
  · rw [orchestratorOutput, hwait]
    simp
  · rw [orchestratorExit, hwait]
    simp
  · intro sw sp h
    cases sw <;> cases sp <;> simp_all [childExitCode]

theorem claim_C6_witness :
    (ChildStatus.exited 1 ∈ [ChildStatus.exited 0, ChildStatus.exited 1]) ∧
      childOk (ChildStatus.exited 1) = false ∧
      orchestratorOutput [ChildStatus.exited 0, ChildStatus.exited 1] 2 (0, 4) = none ∧
      orchestratorExit [ChildStatus.exited 0, ChildStatus.exited 1] = 1 :=
  ⟨by decide, by decide,
    (claim_C6 [ChildStatus.exited 0, ChildStatus.exited 1] 2 (0, 4)
      (ChildStatus.exited 1) (by decide) (by decide)).1,
    (claim_C6 [ChildStatus.exited 0, ChildStatus.exited 1] 2 (0, 4)
      (ChildStatus.exited 1) (by decide) (by decide)).2.1⟩

/-- C7 (counterexample to the claim as stated): in the scenario
subject = `"ACGTACGT"`, query = `"ACGT"`, the score of position 6 is not 1 —
the truncated window `"GT"` matches the query prefix `"AC"` nowhere. -/
theorem claim_C7_counterexample :
    matchesAt "ACGTACGT".toList "ACGT".toList 6 ≠ 1 := by
  decide

/-- C7 (amended): in the scenario subject = `"ACGTACGT"`, query = `"ACGT"`,
the score of position 6 (boundary-truncated window `"GT"`) is 0, and with
`W = 2` the final result is position 0 with score 4 (the tie with
position 4 broken by the lower index). -/
theorem claim_C7 :
    matchesAt "ACGTACGT".toList "ACGT".toList 6 = 0 ∧
      matchesAt "ACGTACGT".toList "ACGT".toList 0 = 4 ∧
      matchesAt "ACGTACGT".toList "ACGT".toList 4 = 4 ∧
      finalResult "ACGTACGT".toList "ACGT".toList 2 = (0, 4) := by
  refine ⟨?_, ?_, ?_, ?_⟩ <;> decide

/-- C8: `prog2.c` and `prog2a.c` implement the same core — for every
subject, query and worker count `W` with `1 ≤ W ≤ len(subject)`, both
produce the identical output triple. -/
theorem claim_C8 (seq subseq : List Char) (W : Int)
    (h1 : 1 ≤ W) (h2 : W ≤ (seq.length : Int)) :
    prog2Run seq subseq W = prog2aRun seq subseq W := by
  have hW0 : ¬ (W ≤ 0) := by omega
  have hWL : ¬ ((seq.length : Int) < W) := by omega
  rw [prog2Run, prog2aRun, if_neg hW0, if_neg hW0, if_neg hWL]
  by_cases hsub : subseq.length = 0 ∨ seq.length = 0
  · rw [if_pos hsub, if_pos (by tauto)]
  · rw [if_neg hsub, if_neg (by tauto), finalResult2a_eq]

theorem claim_C8_witness :
    ((1 : Int) ≤ 2) ∧ ((2 : Int) ≤ (("ACGTACGT".toList).length : Int)) ∧
      prog2Run "ACGTACGT".toList "ACGT".toList 2 =
        prog2aRun "ACGTACGT".toList "ACGT".toList 2 :=
  ⟨by decide, by decide,
    claim_C8 "ACGTACGT".toList "ACGT".toList 2 (by decide) (by decide)⟩

/-- C9: the shared best record is the sentinel at initialization; every
merge leaves it unchanged or installs one worker's local result; each local
result is itself the sentinel or a position in `[0, len(subject))` with a
count in `[0, len(query)]`; hence the invariant holds after every merge. -/
theorem claim_C9 (seq subseq : List Char) (W : Nat) :
    partialFinal seq subseq W 0 = (-1, -1) ∧
    (∀ cur cand : Int × Int, childContribute cur cand = cur ∨ childContribute cur cand = cand) ∧
    (∀ i, recordInv seq.length subseq.length (workerResult seq subseq W i)) ∧
    (∀ n, recordInv seq.length subseq.length (partialFinal seq subseq W n)) :=
  ⟨rfl, childContribute_or, workerResult_inv seq subseq W, partialFinal_inv seq subseq W⟩

/-- C10: when the subject is non-empty, a successful run never emits the
sentinel: worker 0's assignment contains position 0 for every `W ≥ 1`, so
the final record has a non-negative position and count. -/
theorem claim_C10 (seq subseq : List Char) (hs : seq ≠ []) (W : Nat) (hW : 1 ≤ W) :
    0 ∈ assignedList seq.length W 0 ∧
    0 ≤ (finalResult seq subseq W).1 ∧ 0 ≤ (finalResult seq subseq W).2 := by
  have hL : 0 < seq.length := List.length_pos.mpr hs
  refine ⟨(mem_assignedList hW hW 0).mpr ⟨hL, Nat.zero_mod W⟩, ?_⟩
  rcases @finalResult_isBestOf seq subseq W hW with ⟨hemp, -⟩ | ⟨p, -, hr, -, -⟩
  · exact absurd hL (hemp 0)
  · rw [hr]
    constructor
    · show (0 : Int) ≤ (p : Int)
      omega
    · show (0 : Int) ≤ (matchesAt seq subseq p : Int)
      omega

theorem claim_C10_witness :
    ("ACGTACGT".toList ≠ ([] : List Char)) ∧ 1 ≤ 3 ∧
      0 ∈ assignedList ("ACGTACGT".toList).length 3 0 ∧
      0 ≤ (finalResult "ACGTACGT".toList "ACGT".toList 3).1 ∧
      0 ≤ (finalResult "ACGTACGT".toList "ACGT".toList 3).2 :=
  ⟨by decide, by decide, claim_C10 "ACGTACGT".toList "ACGT".toList (by decide) 3 (by decide)⟩

end DnaSearch
